import Mathlib

/-!
Shallow embedding of `thompson_sampling_bernoulli` from
`src/mabworkshoppy/src/mabworkshoppy/thompson.py`, together with proofs of
the specification claims about it.

Modelling conventions:
* Probabilities and posterior parameters (numpy float arrays) are embedded
  as rational numbers (`ℚ`); arrays are Lean lists accumulated in loop
  order (numpy preallocates `zeros(n_trials)` and writes slot `t` at trial
  `t`, which produces the same final array).
* The numpy `Generator` is embedded as an abstract state-passing randomness
  source: a state type `σ` plus one scalar draw operation for each of the
  three distributions the code uses.  A vectorized numpy call (for example
  `rng.beta(alpha, beta)` over `n_arms` arms) is modelled as that many
  scalar draws in array order, threading the state.
* Python exceptions are embedded as `Except`; the error value carries the
  randomness state at the moment the exception is raised, so "no draw was
  consumed before the failure" is the statement that the error carries the
  initial state unchanged.
* `n_trials` is a Python `int`, embedded as `ℤ`; `numpy.zeros(n_trials)`
  raises `ValueError` for negative sizes, `max(true_probs)` raises
  `ValueError` on an empty list, `rng.binomial(1, p)` raises `ValueError`
  for `p` outside `[0, 1]`, fancy indexing `array(true_probs)[idx]` raises
  `IndexError` for an out-of-range index, and `numpy.argmax` raises
  `ValueError` on an empty array.  Each of these numpy/Python failure
  points is embedded at the same program point.
-/

namespace Mabworkshoppy

/-- Abstract randomness source (embeds `numpy.random.Generator`): a state
type together with one scalar draw per distribution used by the code.
`betaSample a b` draws one `Beta(a, b)` variate, `binomial p` draws one
`Binomial(1, p)` variate (the code always passes `n = 1`), and
`integerDraw lo hi` draws one uniform integer in `[lo, hi)`. -/
structure Rng (σ : Type) where
  betaSample : ℚ → ℚ → σ → ℚ × σ
  binomial : ℚ → σ → ℕ × σ
  integerDraw : ℕ → ℕ → σ → ℕ × σ

/-- The part of the numpy `Generator.integers` contract the code relies on:
draws from `integers(lo, hi)` land in `[lo, hi)`. -/
structure Rng.WF {σ : Type} (r : Rng σ) : Prop where
  integer_mem : ∀ lo hi s, lo < hi →
    lo ≤ (r.integerDraw lo hi s).1 ∧ (r.integerDraw lo hi s).1 < hi

/-- A concrete deterministic randomness source used to evaluate the
embedding on closed inputs. -/
def constRng : Rng Unit where
  betaSample := fun _ _ _ => ((1 : ℚ)/2, ())
  binomial := fun _ _ => (1, ())
  integerDraw := fun lo _ _ => (lo, ())

theorem constRng_wf : constRng.WF := by
  constructor
  intro lo hi s h
  exact ⟨le_refl lo, h⟩

/-- First index of the maximum together with the maximum value.
`numpy.argmax` returns the index of the first occurrence of the maximum;
on ties the head wins against any later equal value. -/
def argmaxP : List ℚ → ℕ × ℚ
  | [] => (0, 0)
  | [x] => (0, x)
  | x :: y :: t =>
    if x < (argmaxP (y :: t)).2 then
      ((argmaxP (y :: t)).1 + 1, (argmaxP (y :: t)).2)
    else
      (0, x)

/-- Embeds `numpy.argmax`: index of the first occurrence of the maximum.
(`numpy.argmax` raises on an empty array; that failure point is embedded
at the call site in `trialStepAux`, so the value at `[]` is never used.) -/
def argmax (l : List ℚ) : ℕ :=
  (argmaxP l).1

/-- Embeds Python `max` on a non-empty list (the empty-list `ValueError`
is embedded at the call site in `thompson_sampling_bernoulli`). -/
def pyMax : List ℚ → ℚ
  | [] => 0
  | h :: t => t.foldl max h

/-- Minimum of a list, used only to state the spec bound
`max(true_probs) - min(true_probs)` on per-trial regret. -/
def listMin : List ℚ → ℚ
  | [] => 0
  | h :: t => t.foldl min h

/-- Running partial sums with accumulator. -/
def cumsumAux (acc : ℚ) : List ℚ → List ℚ
  | [] => []
  | x :: xs => (acc + x) :: cumsumAux (acc + x) xs

/-- Embeds `numpy.cumsum`. -/
def cumsum (l : List ℚ) : List ℚ :=
  cumsumAux 0 l

/-- Embeds the vectorized call `rng.beta(alpha, beta)`: one Beta draw per
arm, in array order, threading the generator state. -/
def betaVec {σ : Type} (r : Rng σ) : List (ℚ × ℚ) → σ → List ℚ × σ
  | [], s => ([], s)
  | ab :: rest, s =>
    ((r.betaSample ab.1 ab.2 s).1 ::
        (betaVec r rest (r.betaSample ab.1 ab.2 s).2).1,
      (betaVec r rest (r.betaSample ab.1 ab.2 s).2).2)

/-- Embeds the vectorized call `rng.integers(lo, hi, n)`: `n` uniform
integer draws in array order, threading the generator state. -/
def integersVec {σ : Type} (r : Rng σ) (lo hi : ℕ) : ℕ → σ → List ℕ × σ
  | 0, s => ([], s)
  | n + 1, s =>
    ((r.integerDraw lo hi s).1 ::
        (integersVec r lo hi n (r.integerDraw lo hi s).2).1,
      (integersVec r lo hi n (r.integerDraw lo hi s).2).2)

/-- Embeds numpy fancy indexing `array(l)[idxs]`; an out-of-range index
raises `IndexError`. -/
def fancyIndex (l : List ℚ) : List ℕ → Except String (List ℚ)
  | [] => .ok []
  | i :: is =>
    match l.get? i with
    | none => .error ("IndexError: index is out of bounds")
    | some x =>
      match fancyIndex l is with
      | .error e => .error e
      | .ok xs => .ok (x :: xs)

/-- The mutable state of the simulation loop: the per-arm posterior
parameter arrays `alpha` and `beta`, the per-trial records written so far
(`choices`, `rewards`, `realized_regret`), and the generator state. -/
structure LoopState (σ : Type) where
  alpha : List ℚ
  beta : List ℚ
  choices : List ℕ
  rewards : List ℕ
  realized_regret : List ℚ
  rngState : σ
deriving DecidableEq

/-- State before the first trial: `alpha = ones(n_arms)`,
`beta = ones(n_arms)`, no per-trial records yet. -/
def initLoop {σ : Type} (n_arms : ℕ) (s : σ) : LoopState σ where
  alpha := List.replicate n_arms 1
  beta := List.replicate n_arms 1
  choices := []
  rewards := []
  realized_regret := []
  rngState := s

/-- The body of one trial, after the posterior samples `sampled` have been
drawn (generator state `s1`).  Mirrors lines 56-72 of `thompson.py`:
argmax selection, reward draw via `rng.binomial(1, true_probs[chosen])`,
the single posterior increment, and the realized-regret record. -/
def trialStepAux {σ : Type} (r : Rng σ) (tp : List ℚ) (bp : ℚ)
    (st : LoopState σ) (sampled : List ℚ) (s1 : σ) :
    Except (String × σ) (LoopState σ) :=
  if sampled = [] then
    .error ("ValueError: attempt to get argmax of an empty sequence", s1)
  else
    match tp.get? (argmax sampled) with
    | none => .error ("IndexError: list index out of range", s1)
    | some p =>
      if p < 0 ∨ 1 < p then
        .error ("ValueError: p is not a valid probability", s1)
      else
        if (r.binomial p s1).1 = 1 then
          match st.alpha.get? (argmax sampled) with
          | none => .error ("IndexError: index is out of bounds", (r.binomial p s1).2)
          | some a =>
            .ok { alpha := st.alpha.set (argmax sampled) (a + 1)
                  beta := st.beta
                  choices := st.choices ++ [argmax sampled]
                  rewards := st.rewards ++ [(r.binomial p s1).1]
                  realized_regret := st.realized_regret ++ [bp - p]
                  rngState := (r.binomial p s1).2 }
        else
          match st.beta.get? (argmax sampled) with
          | none => .error ("IndexError: index is out of bounds", (r.binomial p s1).2)
          | some b =>
            .ok { alpha := st.alpha
                  beta := st.beta.set (argmax sampled) (b + 1)
                  choices := st.choices ++ [argmax sampled]
                  rewards := st.rewards ++ [(r.binomial p s1).1]
                  realized_regret := st.realized_regret ++ [bp - p]
                  rngState := (r.binomial p s1).2 }

/-- One full trial: draw the posterior samples (`rng.beta(alpha, beta)`),
then run the trial body. -/
def trialStep {σ : Type} (r : Rng σ) (tp : List ℚ) (bp : ℚ)
    (st : LoopState σ) : Except (String × σ) (LoopState σ) :=
  trialStepAux r tp bp st
    (betaVec r (st.alpha.zip st.beta) st.rngState).1
    (betaVec r (st.alpha.zip st.beta) st.rngState).2

/-- The `for t in range(n_trials)` loop. -/
def runTrials {σ : Type} (r : Rng σ) (tp : List ℚ) (bp : ℚ) :
    ℕ → LoopState σ → Except (String × σ) (LoopState σ)
  | 0, st => .ok st
  | n + 1, st =>
    match trialStep r tp bp st with
    | .error e => .error e
    | .ok st' => runTrials r tp bp n st'

/-- The result dictionary returned by `thompson_sampling_bernoulli`. -/
structure SimResult where
  choices : List ℕ
  rewards : List ℕ
  cumulative_regret : List ℚ
  static_cumulative_regret : List ℚ
  alpha : List ℚ
  beta : List ℚ
  true_probs : List ℚ
deriving DecidableEq

/-- Embedding of `thompson_sampling_bernoulli(true_probs, n_trials, rng)`.
The two leading guards embed, in program order, the `ValueError` that
`zeros(n_trials)` raises for a negative size and the `ValueError` that
`max(true_probs)` raises on an empty list; neither consumes a draw, so the
error carries the initial generator state `s0`.  After the adaptive loop,
the static baseline consumes `n_trials` draws from
`rng.integers(0, n_arms, n_trials)` and indexes `array(true_probs)` with
them.  (The `low >= high` validation inside `rng.integers` cannot fire
here: `n_arms ≥ 1` whenever that call is reached, because the empty-list
guard already passed.) -/
def thompson_sampling_bernoulli {σ : Type} (true_probs : List ℚ)
    (n_trials : ℤ) (r : Rng σ) (s0 : σ) :
    Except (String × σ) (SimResult × σ) :=
  if n_trials < 0 then
    .error ("ValueError: negative dimensions are not allowed", s0)
  else if true_probs = [] then
    .error ("ValueError: max() arg is an empty sequence", s0)
  else
    match runTrials r true_probs (pyMax true_probs) n_trials.toNat
        (initLoop true_probs.length s0) with
    | .error e => .error e
    | .ok st =>
      match fancyIndex true_probs
          (integersVec r 0 true_probs.length n_trials.toNat st.rngState).1 with
      | .error e =>
        .error (e,
          (integersVec r 0 true_probs.length n_trials.toNat st.rngState).2)
      | .ok vals =>
        .ok ({ choices := st.choices
               rewards := st.rewards
               cumulative_regret := cumsum st.realized_regret
               static_cumulative_regret :=
                 cumsum (vals.map (fun p => pyMax true_probs - p))
               alpha := st.alpha
               beta := st.beta
               true_probs := true_probs },
          (integersVec r 0 true_probs.length n_trials.toNat st.rngState).2)

/-- The per-trial increment hidden in a cumulative series: entry `t` minus
entry `t - 1` (entry `0` minus nothing).  Applied to `cumsum l` this
recovers `l` entry by entry. -/
def seriesStep (c : List ℚ) (t : ℕ) : ℚ :=
  c.getD t 0 - (if t = 0 then 0 else c.getD (t - 1) 0)

/-! ### Properties of `argmax` -/

theorem argmaxP_fst_lt_length : ∀ (l : List ℚ), l ≠ [] → (argmaxP l).1 < l.length
  | [_], _ => by simp [argmaxP]
  | x :: y :: t, _ => by
    have ih := argmaxP_fst_lt_length (y :: t) (by simp)
    by_cases h : x < (argmaxP (y :: t)).2
    · simp only [argmaxP, if_pos h, List.length_cons]
      simp only [List.length_cons] at ih
      omega
    · simp [argmaxP, if_neg h]

theorem argmaxP_snd_ge : ∀ (l : List ℚ) (x : ℚ), x ∈ l → x ≤ (argmaxP l).2
  | [_], x, h => by
    rcases List.mem_singleton.1 h with rfl
    simp [argmaxP]
  | a :: y :: t, x, h => by
    rcases List.mem_cons.1 h with rfl | h2
    · by_cases hc : x < (argmaxP (y :: t)).2
      · simp only [argmaxP, if_pos hc]
        exact le_of_lt hc
      · simp [argmaxP, if_neg hc]
    · have ih := argmaxP_snd_ge (y :: t) x h2
      by_cases hc : a < (argmaxP (y :: t)).2
      · simpa only [argmaxP, if_pos hc] using ih
      · simp only [argmaxP, if_neg hc]
        exact le_trans ih (not_lt.1 hc)

theorem argmaxP_getD : ∀ (l : List ℚ), l ≠ [] → l.getD (argmaxP l).1 0 = (argmaxP l).2
  | [_], _ => by simp [argmaxP]
  | x :: y :: t, _ => by
    have ih := argmaxP_getD (y :: t) (by simp)
    by_cases h : x < (argmaxP (y :: t)).2
    · simpa only [argmaxP, if_pos h, List.getD_cons_succ] using ih
    · simp [argmaxP, if_neg h]

theorem argmaxP_first : ∀ (l : List ℚ) (j : ℕ), j < (argmaxP l).1 →
    l.getD j 0 < (argmaxP l).2
  | [_], j, h => by simp [argmaxP] at h
  | x :: y :: t, j, h => by
    by_cases hc : x < (argmaxP (y :: t)).2
    · simp only [argmaxP, if_pos hc] at h ⊢
      cases j with
      | zero => simpa using hc
      | succ k =>
        simp only [List.getD_cons_succ]
        exact argmaxP_first (y :: t) k (by omega)
    · simp [argmaxP, if_neg hc] at h

theorem argmax_lt_length (l : List ℚ) (h : l ≠ []) : argmax l < l.length :=
  argmaxP_fst_lt_length l h

theorem getD_argmax (l : List ℚ) (h : l ≠ []) :
    l.getD (argmax l) 0 = (argmaxP l).2 :=
  argmaxP_getD l h

theorem argmax_is_max (l : List ℚ) (h : l ≠ []) (j : ℕ) (hj : j < l.length) :
    l.getD j 0 ≤ l.getD (argmax l) 0 := by
  rw [getD_argmax l h]
  have hmem : l.getD j 0 ∈ l := by
    rw [List.getD_eq_getElem l 0 hj]
    exact List.getElem_mem hj
  exact argmaxP_snd_ge l _ hmem

theorem argmax_first (l : List ℚ) (h : l ≠ []) (j : ℕ) (hj : j < argmax l) :
    l.getD j 0 < l.getD (argmax l) 0 := by
  rw [getD_argmax l h]
  exact argmaxP_first l j hj

/-! ### Properties of `pyMax` and `listMin` -/

theorem le_foldl_max : ∀ (t : List ℚ) (a : ℚ), a ≤ t.foldl max a
  | [], a => le_refl a
  | x :: xs, a => le_trans (le_max_left a x) (le_foldl_max xs (max a x))

theorem mem_le_foldl_max : ∀ (t : List ℚ) (a x : ℚ), x ∈ t → x ≤ t.foldl max a
  | y :: xs, a, x, h => by
    rcases List.mem_cons.1 h with rfl | h2
    · exact le_trans (le_max_right a x) (le_foldl_max xs (max a x))
    · exact mem_le_foldl_max xs (max a y) x h2

theorem le_pyMax (l : List ℚ) (x : ℚ) (h : x ∈ l) : x ≤ pyMax l := by
  cases l with
  | nil => cases h
  | cons a t =>
    rcases List.mem_cons.1 h with rfl | h2
    · exact le_foldl_max t x
    · exact mem_le_foldl_max t a x h2

theorem foldl_min_le : ∀ (t : List ℚ) (a : ℚ), t.foldl min a ≤ a
  | [], a => le_refl a
  | x :: xs, a => le_trans (foldl_min_le xs (min a x)) (min_le_left a x)

theorem foldl_min_le_mem : ∀ (t : List ℚ) (a x : ℚ), x ∈ t → t.foldl min a ≤ x
  | y :: xs, a, x, h => by
    rcases List.mem_cons.1 h with rfl | h2
    · exact le_trans (foldl_min_le xs (min a x)) (min_le_right a x)
    · exact foldl_min_le_mem xs (min a y) x h2

theorem listMin_le (l : List ℚ) (x : ℚ) (h : x ∈ l) : listMin l ≤ x := by
  cases l with
  | nil => cases h
  | cons a t =>
    rcases List.mem_cons.1 h with rfl | h2
    · exact foldl_min_le t x
    · exact foldl_min_le_mem t a x h2

/-! ### List helper lemmas -/

theorem get?_set_self (l : List ℚ) (i : ℕ) (a : ℚ) (h : i < l.length) :
    (l.set i a).get? i = some a := by
  rw [List.get?_eq_getElem?]
  exact List.getElem?_set_eq_of_lt a h

theorem get?_set_ne (l : List ℚ) (i j : ℕ) (a : ℚ) (h : i ≠ j) :
    (l.set i a).get? j = l.get? j := by
  rw [List.get?_eq_getElem?, List.get?_eq_getElem?, List.getElem?_set_ne h]

theorem sum_set_succ : ∀ (l : List ℚ) (i : ℕ) (a : ℚ), l.get? i = some a →
    (l.set i (a + 1)).sum = l.sum + 1
  | [], i, a, h => by simp at h
  | x :: xs, 0, a, h => by
    simp only [List.get?_cons_zero, Option.some.injEq] at h
    subst h
    simp only [List.set_cons_zero, List.sum_cons]
    ring
  | x :: xs, i + 1, a, h => by
    simp only [List.get?_cons_succ] at h
    have ih := sum_set_succ xs i a h
    simp only [List.set_cons_succ, List.sum_cons, ih]
    ring

/-! ### Properties of `cumsum` -/

theorem cumsumAux_length : ∀ (l : List ℚ) (acc : ℚ),
    (cumsumAux acc l).length = l.length
  | [], _ => rfl
  | x :: xs, acc => by
    simp only [cumsumAux, List.length_cons, cumsumAux_length xs (acc + x)]

theorem cumsum_length (l : List ℚ) : (cumsum l).length = l.length :=
  cumsumAux_length l 0

theorem cumsumAux_getD : ∀ (l : List ℚ) (acc : ℚ) (t : ℕ), t < l.length →
    (cumsumAux acc l).getD t 0 = acc + (l.take (t + 1)).sum
  | x :: xs, acc, 0, _ => by
    simp [cumsumAux]
  | x :: xs, acc, t + 1, h => by
    simp only [cumsumAux, List.getD_cons_succ]
    rw [cumsumAux_getD xs (acc + x) t (by simpa using h)]
    simp only [List.take_succ_cons, List.sum_cons]
    ring

theorem cumsum_getD (l : List ℚ) (t : ℕ) (h : t < l.length) :
    (cumsum l).getD t 0 = (l.take (t + 1)).sum := by
  rw [cumsum, cumsumAux_getD l 0 t h, zero_add]

theorem seriesStep_cumsum (l : List ℚ) (t : ℕ) (h : t < l.length) :
    seriesStep (cumsum l) t = l.getD t 0 := by
  cases t with
  | zero =>
    rw [seriesStep, if_pos rfl, sub_zero, cumsum_getD l 0 h,
      List.sum_take_succ l 0 h, List.getD_eq_getElem l 0 h]
    simp
  | succ k =>
    have hk : k < l.length := by omega
    rw [seriesStep, if_neg (Nat.succ_ne_zero k), Nat.add_sub_cancel,
      cumsum_getD l (k + 1) h, cumsum_getD l k hk,
      List.sum_take_succ l (k + 1) h, List.getD_eq_getElem l 0 h]
    ring

theorem cumsum_mono (l : List ℚ) (hl : ∀ x ∈ l, 0 ≤ x) (t : ℕ)
    (h : t + 1 < l.length) :
    (cumsum l).getD t 0 ≤ (cumsum l).getD (t + 1) 0 := by
  rw [cumsum_getD l t (by omega), cumsum_getD l (t + 1) h,
    List.sum_take_succ l (t + 1) h]
  have h0 : (0 : ℚ) ≤ l[t + 1] := hl _ (List.getElem_mem h)
  linarith

theorem cumsumAux_zeros : ∀ (l : List ℚ) (acc : ℚ), (∀ x ∈ l, x = 0) →
    cumsumAux acc l = List.replicate l.length acc
  | [], _, _ => rfl
  | x :: xs, acc, h => by
    have hx : x = 0 := h x (List.mem_cons_self x xs)
    subst hx
    simp only [cumsumAux, add_zero, List.length_cons, List.replicate_succ]
    rw [cumsumAux_zeros xs acc (fun y hy => h y (List.mem_cons_of_mem _ hy))]

theorem cumsum_zeros (l : List ℚ) (h : ∀ x ∈ l, x = 0) :
    cumsum l = List.replicate l.length 0 :=
  cumsumAux_zeros l 0 h

/-! ### More list helpers -/

theorem getD_snoc_length {α : Type} (l : List α) (x d : α) :
    (l ++ [x]).getD l.length d = x := by
  induction l with
  | nil => rfl
  | cons y ys ih =>
    simp only [List.cons_append, List.length_cons, List.getD_cons_succ]
    exact ih

theorem getD_of_get? {α : Type} (l : List α) (i : ℕ) (x d : α)
    (h : l.get? i = some x) : l.getD i d = x := by
  rw [List.getD_eq_getElem?_getD, ← List.get?_eq_getElem?, h]
  rfl

/-! ### Properties of the vectorized draws and of fancy indexing -/

theorem betaVec_length {σ : Type} (r : Rng σ) :
    ∀ (ab : List (ℚ × ℚ)) (s : σ), (betaVec r ab s).1.length = ab.length
  | [], _ => rfl
  | ab :: rest, s => by
    simp only [betaVec, List.length_cons,
      betaVec_length r rest (r.betaSample ab.1 ab.2 s).2]

theorem integersVec_length {σ : Type} (r : Rng σ) (lo hi : ℕ) :
    ∀ (n : ℕ) (s : σ), (integersVec r lo hi n s).1.length = n
  | 0, _ => rfl
  | n + 1, s => by
    simp only [integersVec, List.length_cons,
      integersVec_length r lo hi n (r.integerDraw lo hi s).2]

theorem integersVec_mem {σ : Type} (r : Rng σ) (hr : r.WF) (lo hi : ℕ)
    (hlt : lo < hi) : ∀ (n : ℕ) (s : σ) (x : ℕ),
    x ∈ (integersVec r lo hi n s).1 → lo ≤ x ∧ x < hi
  | 0, s, x, hx => by simp [integersVec] at hx
  | n + 1, s, x, hx => by
    simp only [integersVec, List.mem_cons] at hx
    rcases hx with rfl | hx
    · exact hr.integer_mem lo hi s hlt
    · exact integersVec_mem r hr lo hi hlt n (r.integerDraw lo hi s).2 x hx

theorem fancyIndex_ok_length : ∀ (l : List ℚ) (idxs : List ℕ) (vals : List ℚ),
    fancyIndex l idxs = .ok vals → vals.length = idxs.length
  | l, [], vals, h => by
    rw [fancyIndex] at h
    cases h
    rfl
  | l, i :: is, vals, h => by
    rw [fancyIndex] at h
    cases hg : l.get? i with
    | none => rw [hg] at h; cases h
    | some x =>
      rw [hg] at h
      cases hf : fancyIndex l is with
      | error e => rw [hf] at h; cases h
      | ok xs =>
        rw [hf] at h
        cases h
        simp [fancyIndex_ok_length l is xs hf]

theorem fancyIndex_ok_mem : ∀ (l : List ℚ) (idxs : List ℕ) (vals : List ℚ),
    fancyIndex l idxs = .ok vals → ∀ v ∈ vals, v ∈ l
  | l, [], vals, h => by
    rw [fancyIndex] at h
    cases h
    intro v hv
    cases hv
  | l, i :: is, vals, h => by
    rw [fancyIndex] at h
    cases hg : l.get? i with
    | none => rw [hg] at h; cases h
    | some x =>
      rw [hg] at h
      cases hf : fancyIndex l is with
      | error e => rw [hf] at h; cases h
      | ok xs =>
        rw [hf] at h
        cases h
        intro v hv
        rcases List.mem_cons.1 hv with rfl | hv2
        · exact List.get?_mem hg
        · exact fancyIndex_ok_mem l is xs hf v hv2

theorem fancyIndex_progress : ∀ (l : List ℚ) (idxs : List ℕ),
    (∀ i ∈ idxs, i < l.length) → ∃ vals, fancyIndex l idxs = .ok vals
  | l, [], _ => ⟨[], rfl⟩
  | l, i :: is, hb => by
    have hi : i < l.length := hb i (List.mem_cons_self i is)
    obtain ⟨vals, hv⟩ :=
      fancyIndex_progress l is (fun j hj => hb j (List.mem_cons_of_mem i hj))
    refine ⟨l.get ⟨i, hi⟩ :: vals, ?_⟩
    rw [fancyIndex, List.get?_eq_get hi, hv]

/-! ### The loop invariant -/

/-- The invariant of the simulation loop after `k` completed trials:
array lengths, positivity and integrality of the posterior parameters,
validity of the recorded choices, the definition of each recorded
realized regret, and the `2*n_arms + k` posterior-mass identity. -/
structure Inv (tp : List ℚ) (bp : ℚ) {σ : Type} (k : ℕ)
    (st : LoopState σ) : Prop where
  lenA : st.alpha.length = tp.length
  lenB : st.beta.length = tp.length
  natA : ∀ x ∈ st.alpha, ∃ m : ℕ, 1 ≤ m ∧ x = (m : ℚ)
  natB : ∀ x ∈ st.beta, ∃ m : ℕ, 1 ≤ m ∧ x = (m : ℚ)
  lenC : st.choices.length = k
  lenW : st.rewards.length = k
  lenG : st.realized_regret.length = k
  choiceLt : ∀ c ∈ st.choices, c < tp.length
  regretEq : ∀ t, t < k →
    st.realized_regret.getD t 0 = bp - tp.getD (st.choices.getD t 0) 0
  sumAB : st.alpha.sum + st.beta.sum = 2 * (tp.length : ℚ) + (k : ℚ)

theorem initLoop_inv {σ : Type} (tp : List ℚ) (bp : ℚ) (s : σ) :
    Inv tp bp 0 (initLoop tp.length s) := by
  refine ⟨?_, ?_, ?_, ?_, rfl, rfl, rfl, ?_, ?_, ?_⟩
  · exact List.length_replicate tp.length 1
  · exact List.length_replicate tp.length 1
  · intro x hx
    rw [List.eq_of_mem_replicate hx]
    exact ⟨1, le_refl 1, by norm_num⟩
  · intro x hx
    rw [List.eq_of_mem_replicate hx]
    exact ⟨1, le_refl 1, by norm_num⟩
  · intro c hc
    cases hc
  · intro t ht
    omega
  · show (List.replicate tp.length (1 : ℚ)).sum +
      (List.replicate tp.length (1 : ℚ)).sum = _
    rw [List.sum_replicate, nsmul_eq_mul, mul_one]
    push_cast
    ring

/-! ### Inversion of one trial -/

theorem trialStepAux_ok_inv {σ : Type} (r : Rng σ) (tp : List ℚ) (bp : ℚ)
    (st : LoopState σ) (sampled : List ℚ) (s1 : σ) (st' : LoopState σ)
    (h : trialStepAux r tp bp st sampled s1 = .ok st') :
    sampled ≠ [] ∧
    ∃ p, tp.get? (argmax sampled) = some p ∧ ¬(p < 0 ∨ 1 < p) ∧
      st'.choices = st.choices ++ [argmax sampled] ∧
      st'.rewards = st.rewards ++ [(r.binomial p s1).1] ∧
      st'.realized_regret = st.realized_regret ++ [bp - p] ∧
      st'.rngState = (r.binomial p s1).2 ∧
      (((r.binomial p s1).1 = 1 ∧
        ∃ a, st.alpha.get? (argmax sampled) = some a ∧
          st'.alpha = st.alpha.set (argmax sampled) (a + 1) ∧
          st'.beta = st.beta) ∨
       ((r.binomial p s1).1 ≠ 1 ∧
        ∃ b, st.beta.get? (argmax sampled) = some b ∧
          st'.beta = st.beta.set (argmax sampled) (b + 1) ∧
          st'.alpha = st.alpha)) := by
  rw [trialStepAux] at h
  split at h
  · cases h
  · rename_i hs
    split at h
    · cases h
    · rename_i p hg
      split at h
      · cases h
      · rename_i hp
        split at h
        · rename_i hw
          split at h
          · cases h
          · rename_i a ha
            injection h with h
            subst h
            exact ⟨hs, p, hg, hp, rfl, rfl, rfl, rfl,
              Or.inl ⟨hw, a, ha, rfl, rfl⟩⟩
        · rename_i hw
          split at h
          · cases h
          · rename_i b hb
            injection h with h
            subst h
            exact ⟨hs, p, hg, hp, rfl, rfl, rfl, rfl,
              Or.inr ⟨hw, b, hb, rfl, rfl⟩⟩

theorem trialStep_ok_inv {σ : Type} (r : Rng σ) (tp : List ℚ) (bp : ℚ)
    (st st' : LoopState σ) (h : trialStep r tp bp st = .ok st') :
    (betaVec r (st.alpha.zip st.beta) st.rngState).1 ≠ [] ∧
    ∃ p, tp.get? (argmax (betaVec r (st.alpha.zip st.beta) st.rngState).1) =
        some p ∧
      ¬(p < 0 ∨ 1 < p) ∧
      st'.choices = st.choices ++
        [argmax (betaVec r (st.alpha.zip st.beta) st.rngState).1] ∧
      st'.rewards = st.rewards ++
        [(r.binomial p (betaVec r (st.alpha.zip st.beta) st.rngState).2).1] ∧
      st'.realized_regret = st.realized_regret ++ [bp - p] ∧
      st'.rngState =
        (r.binomial p (betaVec r (st.alpha.zip st.beta) st.rngState).2).2 ∧
      (((r.binomial p (betaVec r (st.alpha.zip st.beta) st.rngState).2).1 = 1 ∧
        ∃ a, st.alpha.get?
            (argmax (betaVec r (st.alpha.zip st.beta) st.rngState).1) =
            some a ∧
          st'.alpha = st.alpha.set
            (argmax (betaVec r (st.alpha.zip st.beta) st.rngState).1)
            (a + 1) ∧
          st'.beta = st.beta) ∨
       ((r.binomial p (betaVec r (st.alpha.zip st.beta) st.rngState).2).1 ≠ 1 ∧
        ∃ b, st.beta.get?
            (argmax (betaVec r (st.alpha.zip st.beta) st.rngState).1) =
            some b ∧
          st'.beta = st.beta.set
            (argmax (betaVec r (st.alpha.zip st.beta) st.rngState).1)
            (b + 1) ∧
          st'.alpha = st.alpha)) :=
  trialStepAux_ok_inv r tp bp st
    (betaVec r (st.alpha.zip st.beta) st.rngState).1
    (betaVec r (st.alpha.zip st.beta) st.rngState).2 st' h

/-! ### Preservation and progress of the loop invariant -/

theorem trialStep_inv {σ : Type} (r : Rng σ) (tp : List ℚ) (bp : ℚ) (k : ℕ)
    (st st' : LoopState σ) (hI : Inv tp bp k st)
    (h : trialStep r tp bp st = .ok st') : Inv tp bp (k + 1) st' := by
  obtain ⟨hs, p, hg, hp, hc, hw, hrg, hrs, hupd⟩ :=
    trialStep_ok_inv r tp bp st st' h
  set sam := (betaVec r (st.alpha.zip st.beta) st.rngState).1 with hsam
  have hlen : sam.length = tp.length := by
    rw [hsam, betaVec_length, List.length_zip, hI.lenA, hI.lenB, min_self]
  have hch : argmax sam < tp.length := by
    rw [← hlen]
    exact argmax_lt_length sam hs
  have hpval : tp.getD (argmax sam) 0 = p := getD_of_get? _ _ _ _ hg
  have lenC' : st'.choices.length = k + 1 := by
    rw [hc, List.length_append, hI.lenC]
    rfl
  have lenW' : st'.rewards.length = k + 1 := by
    rw [hw, List.length_append, hI.lenW]
    rfl
  have lenG' : st'.realized_regret.length = k + 1 := by
    rw [hrg, List.length_append, hI.lenG]
    rfl
  have choiceLt' : ∀ c ∈ st'.choices, c < tp.length := by
    rw [hc]
    intro c hcmem
    rcases List.mem_append.1 hcmem with h1 | h2
    · exact hI.choiceLt c h1
    · rcases List.mem_singleton.1 h2 with rfl
      exact hch
  have regretEq' : ∀ t, t < k + 1 →
      st'.realized_regret.getD t 0 = bp - tp.getD (st'.choices.getD t 0) 0 := by
    intro t ht
    rw [hrg, hc]
    by_cases htk : t < k
    · rw [List.getD_append _ _ _ _ (by rw [hI.lenG]; exact htk),
        List.getD_append _ _ _ _ (by rw [hI.lenC]; exact htk)]
      exact hI.regretEq t htk
    · have htEq : t = k := by omega
      subst htEq
      have e1 : (st.realized_regret ++ [bp - p]).getD t 0 = bp - p := by
        rw [← hI.lenG]
        exact getD_snoc_length _ _ _
      have e2 : (st.choices ++ [argmax sam]).getD t 0 = argmax sam := by
        rw [← hI.lenC]
        exact getD_snoc_length _ _ _
      rw [e1, e2, hpval]
  rcases hupd with ⟨hw1, a, ha, hA, hB⟩ | ⟨hw1, b, hb, hB, hA⟩
  · refine ⟨?_, ?_, ?_, ?_, lenC', lenW', lenG', choiceLt', regretEq', ?_⟩
    · rw [hA, List.length_set]
      exact hI.lenA
    · rw [hB]
      exact hI.lenB
    · rw [hA]
      intro x hx
      rcases List.mem_or_eq_of_mem_set hx with hx1 | rfl
      · exact hI.natA x hx1
      · obtain ⟨m, hm1, hm2⟩ := hI.natA a (List.get?_mem ha)
        exact ⟨m + 1, by omega, by rw [hm2]; push_cast; ring⟩
    · rw [hB]
      exact hI.natB
    · rw [hA, hB, sum_set_succ st.alpha (argmax sam) a ha]
      have hsum := hI.sumAB
      push_cast
      linarith
  · refine ⟨?_, ?_, ?_, ?_, lenC', lenW', lenG', choiceLt', regretEq', ?_⟩
    · rw [hA]
      exact hI.lenA
    · rw [hB, List.length_set]
      exact hI.lenB
    · rw [hA]
      exact hI.natA
    · rw [hB]
      intro x hx
      rcases List.mem_or_eq_of_mem_set hx with hx1 | rfl
      · exact hI.natB x hx1
      · obtain ⟨m, hm1, hm2⟩ := hI.natB b (List.get?_mem hb)
        exact ⟨m + 1, by omega, by rw [hm2]; push_cast; ring⟩
    · rw [hA, hB, sum_set_succ st.beta (argmax sam) b hb]
      have hsum := hI.sumAB
      push_cast
      linarith

theorem trialStep_progress {σ : Type} (r : Rng σ) (tp : List ℚ) (bp : ℚ)
    (k : ℕ) (st : LoopState σ) (hI : Inv tp bp k st) (htp : tp ≠ [])
    (hrange : ∀ p ∈ tp, 0 ≤ p ∧ p ≤ 1) :
    ∃ st', trialStep r tp bp st = .ok st' := by
  rw [trialStep, trialStepAux]
  set sam := (betaVec r (st.alpha.zip st.beta) st.rngState).1 with hsam
  set s1 := (betaVec r (st.alpha.zip st.beta) st.rngState).2 with hs1def
  have hlen : sam.length = tp.length := by
    rw [hsam, betaVec_length, List.length_zip, hI.lenA, hI.lenB, min_self]
  have hne : sam ≠ [] := by
    intro hnil
    rw [hnil] at hlen
    exact htp (List.length_eq_zero.1 hlen.symm)
  have hch : argmax sam < tp.length := by
    rw [← hlen]
    exact argmax_lt_length sam hne
  have hpr := hrange _ (List.get_mem tp (argmax sam) hch)
  have hp : ¬(tp.get ⟨argmax sam, hch⟩ < 0 ∨ 1 < tp.get ⟨argmax sam, hch⟩) := by
    push_neg
    exact ⟨hpr.1, hpr.2⟩
  rw [if_neg hne, List.get?_eq_get hch]
  by_cases hw : (r.binomial (tp.get ⟨argmax sam, hch⟩) s1).1 = 1
  · have hA : argmax sam < st.alpha.length := by
      rw [hI.lenA]
      exact hch
    simp only [if_neg hp, if_pos hw, List.get?_eq_get hA]
    exact ⟨_, rfl⟩
  · have hB : argmax sam < st.beta.length := by
      rw [hI.lenB]
      exact hch
    simp only [if_neg hp, if_neg hw, List.get?_eq_get hB]
    exact ⟨_, rfl⟩

theorem runTrials_inv {σ : Type} (r : Rng σ) (tp : List ℚ) (bp : ℚ) :
    ∀ (m k : ℕ) (st st' : LoopState σ), Inv tp bp k st →
    runTrials r tp bp m st = .ok st' → Inv tp bp (k + m) st'
  | 0, k, st, st', hI, h => by
    rw [runTrials] at h
    injection h with h
    subst h
    exact hI
  | m + 1, k, st, st', hI, h => by
    rw [runTrials] at h
    cases htr : trialStep r tp bp st with
    | error e => rw [htr] at h; cases h
    | ok st1 =>
      rw [htr] at h
      have hI1 := trialStep_inv r tp bp k st st1 hI htr
      have hres := runTrials_inv r tp bp m (k + 1) st1 st' hI1 h
      have heq : (k + 1) + m = k + (m + 1) := by omega
      rw [heq] at hres
      exact hres

theorem runTrials_progress {σ : Type} (r : Rng σ) (tp : List ℚ) (bp : ℚ)
    (htp : tp ≠ []) (hrange : ∀ p ∈ tp, 0 ≤ p ∧ p ≤ 1) :
    ∀ (m k : ℕ) (st : LoopState σ), Inv tp bp k st →
    ∃ st', runTrials r tp bp m st = .ok st'
  | 0, _, st, _ => ⟨st, rfl⟩
  | m + 1, k, st, hI => by
    obtain ⟨st1, h1⟩ := trialStep_progress r tp bp k st hI htp hrange
    obtain ⟨st', h2⟩ := runTrials_progress r tp bp htp hrange m (k + 1) st1
      (trialStep_inv r tp bp k st st1 hI h1)
    refine ⟨st', ?_⟩
    rw [runTrials, h1]
    exact h2

/-! ### Inversion of the whole simulator -/

theorem thompson_ok_inv {σ : Type} (tp : List ℚ) (n : ℤ) (r : Rng σ) (s : σ)
    (res : SimResult) (s' : σ)
    (h : thompson_sampling_bernoulli tp n r s = .ok (res, s')) :
    0 ≤ n ∧ tp ≠ [] ∧
    ∃ st vals,
      runTrials r tp (pyMax tp) n.toNat (initLoop tp.length s) = .ok st ∧
      fancyIndex tp (integersVec r 0 tp.length n.toNat st.rngState).1 =
        .ok vals ∧
      res = { choices := st.choices
              rewards := st.rewards
              cumulative_regret := cumsum st.realized_regret
              static_cumulative_regret :=
                cumsum (vals.map (fun p => pyMax tp - p))
              alpha := st.alpha
              beta := st.beta
              true_probs := tp } := by
  rw [thompson_sampling_bernoulli] at h
  split at h
  · cases h
  split at h
  · cases h
  rename_i h1 h2
  split at h
  · cases h
  rename_i st hrun
  split at h
  · cases h
  rename_i vals hfi
  injection h with h
  exact ⟨not_lt.1 h1, h2, st, vals, hrun, hfi, (congrArg Prod.fst h).symm⟩

theorem thompson_progress {σ : Type} (tp : List ℚ) (n : ℤ) (r : Rng σ)
    (s : σ) (hWF : r.WF) (htp : tp ≠ [])
    (hrange : ∀ p ∈ tp, 0 ≤ p ∧ p ≤ 1) (hn : 0 ≤ n) :
    ∃ out, thompson_sampling_bernoulli tp n r s = .ok out := by
  obtain ⟨st, hrun⟩ := runTrials_progress r tp (pyMax tp) htp hrange n.toNat 0
    (initLoop tp.length s) (initLoop_inv tp (pyMax tp) s)
  have hpos : 0 < tp.length := List.length_pos.2 htp
  have hidx : ∀ i ∈ (integersVec r 0 tp.length n.toNat st.rngState).1,
      i < tp.length := by
    intro i hi
    exact (integersVec_mem r hWF 0 tp.length hpos n.toNat st.rngState i hi).2
  obtain ⟨vals, hvals⟩ := fancyIndex_progress tp _ hidx
  rw [thompson_sampling_bernoulli, if_neg (not_lt.2 hn), if_neg htp]
  simp only [hrun, hvals]
  exact ⟨_, rfl⟩

/-- Every recorded realized regret equals `max(true_probs)` minus the true
probability of the arm chosen that trial, and lies in
`[0, max(true_probs) - min(true_probs)]`. -/
theorem inv_regret_entry_bounds {σ : Type} (tp : List ℚ) (k : ℕ)
    (st : LoopState σ) (hI : Inv tp (pyMax tp) k st) (t : ℕ)
    (ht : t < st.realized_regret.length) :
    st.realized_regret.getD t 0 =
      pyMax tp - tp.getD (st.choices.getD t 0) 0 ∧
    0 ≤ st.realized_regret.getD t 0 ∧
    st.realized_regret.getD t 0 ≤ pyMax tp - listMin tp := by
  have hval := hI.regretEq t (by rw [← hI.lenG]; exact ht)
  have hclen : t < st.choices.length := by
    rw [hI.lenC, ← hI.lenG]
    exact ht
  have hcmem : st.choices.getD t 0 ∈ st.choices := by
    rw [List.getD_eq_getElem st.choices 0 hclen]
    exact List.getElem_mem hclen
  have hcb : st.choices.getD t 0 < tp.length := hI.choiceLt _ hcmem
  have hpmem : tp.getD (st.choices.getD t 0) 0 ∈ tp := by
    rw [List.getD_eq_getElem tp 0 hcb]
    exact List.getElem_mem hcb
  have h1 := le_pyMax tp _ hpmem
  have h2 := listMin_le tp _ hpmem
  refine ⟨hval, ?_, ?_⟩
  · rw [hval]
    linarith
  · rw [hval]
    linarith

theorem inv_regret_mem_nonneg {σ : Type} (tp : List ℚ) (k : ℕ)
    (st : LoopState σ) (hI : Inv tp (pyMax tp) k st) :
    ∀ x ∈ st.realized_regret, 0 ≤ x := by
  intro x hx
  obtain ⟨i, hi, hix⟩ := List.getElem_of_mem hx
  have hb := (inv_regret_entry_bounds tp k st hI i hi).2.1
  rw [List.getD_eq_getElem _ 0 hi, hix] at hb
  exact hb

/-- Every entry of the static baseline regret array is in
`[0, max(true_probs) - min(true_probs)]`. -/
theorem static_entry_bounds (tp vals : List ℚ)
    (hmem : ∀ v ∈ vals, v ∈ tp) (x : ℚ)
    (hx : x ∈ vals.map (fun p => pyMax tp - p)) :
    0 ≤ x ∧ x ≤ pyMax tp - listMin tp := by
  obtain ⟨v, hv, rfl⟩ := List.mem_map.1 hx
  have hvtp := hmem v hv
  have h1 := le_pyMax tp v hvtp
  have h2 := listMin_le tp v hvtp
  constructor
  · linarith
  · linarith

theorem getD_replicate_zero : ∀ (m t : ℕ),
    (List.replicate m (0 : ℚ)).getD t 0 = 0
  | 0, t => by simp
  | m + 1, 0 => by simp [List.replicate_succ]
  | m + 1, t + 1 => by
    simp only [List.replicate_succ, List.getD_cons_succ]
    exact getD_replicate_zero m t

/-! ### Concrete runs used by the witnesses -/

/-- The loop state before the first trial of the concrete run. -/
def stZero : LoopState Unit := initLoop 1 ()

/-- The loop state after one trial of the concrete run with `constRng`. -/
def stOne : LoopState Unit where
  alpha := [2]
  beta := [1]
  choices := [0]
  rewards := [1]
  realized_regret := [0]
  rngState := ()

/-- The bundle returned by the concrete run
`thompson_sampling_bernoulli [1/2] 1 constRng`. -/
def R1 : SimResult where
  choices := [0]
  rewards := [1]
  cumulative_regret := [0]
  static_cumulative_regret := [0]
  alpha := [2]
  beta := [1]
  true_probs := [(1 : ℚ)/2]

theorem trialStep_stOne :
    trialStep constRng [(1 : ℚ)/2] (pyMax [(1 : ℚ)/2]) stZero = .ok stOne := by
  norm_num [trialStep, trialStepAux, betaVec, argmax, argmaxP, pyMax,
    initLoop, constRng, stZero, stOne]

theorem runTrials_stOne :
    runTrials constRng [(1 : ℚ)/2] (pyMax [(1 : ℚ)/2]) 1
      (initLoop (List.length [(1 : ℚ)/2]) ()) = .ok stOne := by
  norm_num [runTrials, trialStep, trialStepAux, betaVec, argmax, argmaxP,
    pyMax, initLoop, constRng, stOne]

theorem thompson_R1 :
    thompson_sampling_bernoulli [(1 : ℚ)/2] 1 constRng () = .ok (R1, ()) := by
  norm_num [thompson_sampling_bernoulli, runTrials, trialStep, trialStepAux,
    betaVec, argmax, argmaxP, pyMax, cumsum, cumsumAux, integersVec,
    fancyIndex, initLoop, constRng, R1]

/-! ### The claims -/

/-- Claim C1, corrected.  The source has no explicit input validation, so
the failures are the ones Python/numpy raise on their own: a negative
`n_trials` fails at `zeros(n_trials)` and an empty `true_probs` fails at
`max(true_probs)`, both before any random draw is consumed (the error
carries the initial generator state `s` unchanged); and for every
non-empty `true_probs` with all values in `[0, 1]`, every `n_trials ≥ 0`
(including `n_trials = 0`, which the original claim said must fail) and
every range-respecting randomness source, no error is raised at all. -/
theorem c1_validation_behavior {σ : Type} (tp : List ℚ) (n : ℤ) (r : Rng σ)
    (s : σ) :
    (n < 0 → thompson_sampling_bernoulli tp n r s =
      .error ("ValueError: negative dimensions are not allowed", s)) ∧
    (0 ≤ n → tp = [] → thompson_sampling_bernoulli tp n r s =
      .error ("ValueError: max() arg is an empty sequence", s)) ∧
    (r.WF → tp ≠ [] → (∀ p ∈ tp, 0 ≤ p ∧ p ≤ 1) → 0 ≤ n →
      ∃ out, thompson_sampling_bernoulli tp n r s = .ok out) := by
  refine ⟨?_, ?_, ?_⟩
  · intro h1
    rw [thompson_sampling_bernoulli, if_pos h1]
  · intro hn h2
    rw [thompson_sampling_bernoulli, if_neg (not_lt.2 hn), if_pos h2]
  · intro hWF htp hrange hn
    exact thompson_progress tp n r s hWF htp hrange hn

theorem c1_validation_behavior_witness :
    thompson_sampling_bernoulli [(1 : ℚ)/2] (-1) constRng () =
      .error ("ValueError: negative dimensions are not allowed", ()) ∧
    thompson_sampling_bernoulli ([] : List ℚ) 0 constRng () =
      .error ("ValueError: max() arg is an empty sequence", ()) ∧
    ∃ out, thompson_sampling_bernoulli [(1 : ℚ)/2] 1 constRng () = .ok out :=
  ⟨(c1_validation_behavior [(1 : ℚ)/2] (-1) constRng ()).1 (by norm_num),
   (c1_validation_behavior ([] : List ℚ) 0 constRng ()).2.1 (le_refl 0) rfl,
   (c1_validation_behavior [(1 : ℚ)/2] 1 constRng ()).2.2 constRng_wf
     (by simp)
     (by
       intro p hp
       rcases List.mem_singleton.1 hp with rfl
       norm_num)
     (by norm_num)⟩

/-- Claim C1, counterexample to the claim as stated: `true_probs = [2]`
contains a value outside `[0, 1]` and `n_trials = 0 ≤ 0`, yet the
simulator raises no error and returns an (empty) result bundle. -/
theorem c1_validation_counterexample :
    thompson_sampling_bernoulli [(2 : ℚ)] 0 constRng () =
      .ok ({ choices := [], rewards := [], cumulative_regret := [],
             static_cumulative_regret := [], alpha := [1], beta := [1],
             true_probs := [(2 : ℚ)] }, ()) := rfl

/-- Claim C2: the embedded simulator is a pure function of
`(true_probs, n_trials, randomness source, seed state)`, so two calls on
identical inputs return identical bundles: equal choices, rewards, both
cumulative regret series, final alpha and beta vectors, and true_probs. -/
theorem c2_deterministic {σ : Type} (tp : List ℚ) (n : ℤ) (r : Rng σ) (s : σ)
    (out1 out2 : SimResult × σ)
    (h1 : thompson_sampling_bernoulli tp n r s = .ok out1)
    (h2 : thompson_sampling_bernoulli tp n r s = .ok out2) :
    out1.1.choices = out2.1.choices ∧ out1.1.rewards = out2.1.rewards ∧
    out1.1.cumulative_regret = out2.1.cumulative_regret ∧
    out1.1.static_cumulative_regret = out2.1.static_cumulative_regret ∧
    out1.1.alpha = out2.1.alpha ∧ out1.1.beta = out2.1.beta ∧
    out1.1.true_probs = out2.1.true_probs := by
  have h := h1.symm.trans h2
  injection h with h
  rw [h]
  exact ⟨rfl, rfl, rfl, rfl, rfl, rfl, rfl⟩

theorem c2_deterministic_witness :
    (R1, ()).1.choices = (R1, ()).1.choices ∧
    (R1, ()).1.rewards = (R1, ()).1.rewards ∧
    (R1, ()).1.cumulative_regret = (R1, ()).1.cumulative_regret ∧
    (R1, ()).1.static_cumulative_regret =
      (R1, ()).1.static_cumulative_regret ∧
    (R1, ()).1.alpha = (R1, ()).1.alpha ∧
    (R1, ()).1.beta = (R1, ()).1.beta ∧
    (R1, ()).1.true_probs = (R1, ()).1.true_probs :=
  c2_deterministic [(1 : ℚ)/2] 1 constRng () (R1, ()) (R1, ())
    thompson_R1 thompson_R1

/-- Claim C3: in every trial of the adaptive loop exactly one posterior
parameter is incremented by exactly 1 — `alpha` of the chosen arm on a
success (`reward = 1`), `beta` of the chosen arm otherwise — and no other
parameter of any arm changes; consequently, starting from the all-ones
initialization, every `alpha_i` and `beta_i` is at least 1 after any
number of trials, and no parameter is ever reset or decreased. -/
theorem c3_one_increment_per_trial {σ : Type} (r : Rng σ) (tp : List ℚ)
    (bp : ℚ) :
    (∀ st st' : LoopState σ, trialStep r tp bp st = .ok st' →
      ∃ i w, st'.choices = st.choices ++ [i] ∧
        st'.rewards = st.rewards ++ [w] ∧
        ((w = 1 ∧ ∃ a, st.alpha.get? i = some a ∧
            st'.alpha = st.alpha.set i (a + 1) ∧ st'.beta = st.beta) ∨
         (w ≠ 1 ∧ ∃ b, st.beta.get? i = some b ∧
            st'.beta = st.beta.set i (b + 1) ∧ st'.alpha = st.alpha))) ∧
    (∀ (s : σ) (k : ℕ) (st' : LoopState σ),
      runTrials r tp bp k (initLoop tp.length s) = .ok st' →
      (∀ x ∈ st'.alpha, 1 ≤ x) ∧ (∀ x ∈ st'.beta, 1 ≤ x)) := by
  constructor
  · intro st st' h
    obtain ⟨hs, p, hg, hp, hc, hw, hrg, hrs, hupd⟩ :=
      trialStep_ok_inv r tp bp st st' h
    refine ⟨argmax (betaVec r (st.alpha.zip st.beta) st.rngState).1,
      (r.binomial p (betaVec r (st.alpha.zip st.beta) st.rngState).2).1,
      hc, hw, ?_⟩
    rcases hupd with ⟨hw1, a, ha, hA, hB⟩ | ⟨hw1, b, hb, hB, hA⟩
    · exact Or.inl ⟨hw1, a, ha, hA, hB⟩
    · exact Or.inr ⟨hw1, b, hb, hB, hA⟩
  · intro s k st' h
    have hI := runTrials_inv r tp bp k 0 _ st' (initLoop_inv tp bp s) h
    rw [zero_add] at hI
    constructor
    · intro x hx
      obtain ⟨m, hm1, hm2⟩ := hI.natA x hx
      rw [hm2]
      exact_mod_cast hm1
    · intro x hx
      obtain ⟨m, hm1, hm2⟩ := hI.natB x hx
      rw [hm2]
      exact_mod_cast hm1

theorem c3_one_increment_per_trial_witness :
    (∃ i w, stOne.choices = stZero.choices ++ [i] ∧
      stOne.rewards = stZero.rewards ++ [w] ∧
      ((w = 1 ∧ ∃ a, stZero.alpha.get? i = some a ∧
          stOne.alpha = stZero.alpha.set i (a + 1) ∧
          stOne.beta = stZero.beta) ∨
       (w ≠ 1 ∧ ∃ b, stZero.beta.get? i = some b ∧
          stOne.beta = stZero.beta.set i (b + 1) ∧
          stOne.alpha = stZero.alpha))) ∧
    ((∀ x ∈ stOne.alpha, 1 ≤ x) ∧ (∀ x ∈ stOne.beta, 1 ≤ x)) :=
  ⟨(c3_one_increment_per_trial constRng [(1 : ℚ)/2] (pyMax [(1 : ℚ)/2])).1
      stZero stOne trialStep_stOne,
   (c3_one_increment_per_trial constRng [(1 : ℚ)/2] (pyMax [(1 : ℚ)/2])).2
      () 1 stOne runTrials_stOne⟩

/-- Claim C4: in every trial the recorded chosen arm is `argmax` of the
per-arm posterior samples drawn that trial, and `argmax` picks the arm
whose sample is maximal, breaking ties in favour of the smallest index
(every strictly earlier index has a strictly smaller sample). -/
theorem c4_stable_argmax {σ : Type} (r : Rng σ) (tp : List ℚ) (bp : ℚ)
    (st st' : LoopState σ) (h : trialStep r tp bp st = .ok st') :
    st'.choices = st.choices ++
      [argmax (betaVec r (st.alpha.zip st.beta) st.rngState).1] ∧
    argmax (betaVec r (st.alpha.zip st.beta) st.rngState).1 <
      (betaVec r (st.alpha.zip st.beta) st.rngState).1.length ∧
    (∀ j, j < (betaVec r (st.alpha.zip st.beta) st.rngState).1.length →
      (betaVec r (st.alpha.zip st.beta) st.rngState).1.getD j 0 ≤
        (betaVec r (st.alpha.zip st.beta) st.rngState).1.getD
          (argmax (betaVec r (st.alpha.zip st.beta) st.rngState).1) 0) ∧
    (∀ j, j < argmax (betaVec r (st.alpha.zip st.beta) st.rngState).1 →
      (betaVec r (st.alpha.zip st.beta) st.rngState).1.getD j 0 <
        (betaVec r (st.alpha.zip st.beta) st.rngState).1.getD
          (argmax (betaVec r (st.alpha.zip st.beta) st.rngState).1) 0) := by
  obtain ⟨hs, p, hg, hp, hc, hw, hrg, hrs, hupd⟩ :=
    trialStep_ok_inv r tp bp st st' h
  exact ⟨hc, argmax_lt_length _ hs,
    fun j hj => argmax_is_max _ hs j hj,
    fun j hj => argmax_first _ hs j hj⟩

theorem c4_stable_argmax_witness :
    stOne.choices = stZero.choices ++
      [argmax (betaVec constRng (stZero.alpha.zip stZero.beta)
        stZero.rngState).1] ∧
    argmax (betaVec constRng (stZero.alpha.zip stZero.beta)
        stZero.rngState).1 <
      (betaVec constRng (stZero.alpha.zip stZero.beta)
        stZero.rngState).1.length ∧
    (∀ j, j < (betaVec constRng (stZero.alpha.zip stZero.beta)
        stZero.rngState).1.length →
      (betaVec constRng (stZero.alpha.zip stZero.beta)
          stZero.rngState).1.getD j 0 ≤
        (betaVec constRng (stZero.alpha.zip stZero.beta)
            stZero.rngState).1.getD
          (argmax (betaVec constRng (stZero.alpha.zip stZero.beta)
            stZero.rngState).1) 0) ∧
    (∀ j, j < argmax (betaVec constRng (stZero.alpha.zip stZero.beta)
        stZero.rngState).1 →
      (betaVec constRng (stZero.alpha.zip stZero.beta)
          stZero.rngState).1.getD j 0 <
        (betaVec constRng (stZero.alpha.zip stZero.beta)
            stZero.rngState).1.getD
          (argmax (betaVec constRng (stZero.alpha.zip stZero.beta)
            stZero.rngState).1) 0) :=
  c4_stable_argmax constRng [(1 : ℚ)/2] (pyMax [(1 : ℚ)/2]) stZero stOne
    trialStep_stOne

/-- Claim C5: whenever the simulator returns, the final posterior
parameters satisfy `sum(alpha) + sum(beta) = 2*n_arms + n_trials`: each of
the `n_trials` trials adds exactly one unit to exactly one arm's `alpha`
or `beta`, starting from the all-ones initialization. -/
theorem c5_sum_conservation {σ : Type} (tp : List ℚ) (n : ℤ) (r : Rng σ)
    (s : σ) (res : SimResult) (s' : σ)
    (h : thompson_sampling_bernoulli tp n r s = .ok (res, s')) :
    res.alpha.sum + res.beta.sum = 2 * (tp.length : ℚ) + (n.toNat : ℚ) := by
  obtain ⟨hn, htp, st, vals, hrun, hfi, hres⟩ :=
    thompson_ok_inv tp n r s res s' h
  have hI := runTrials_inv r tp (pyMax tp) n.toNat 0 _ st
    (initLoop_inv tp (pyMax tp) s) hrun
  rw [zero_add] at hI
  rw [hres]
  exact hI.sumAB

theorem c5_sum_conservation_witness :
    R1.alpha.sum + R1.beta.sum =
      2 * ((List.length [(1 : ℚ)/2] : ℕ) : ℚ) + (((1 : ℤ).toNat : ℕ) : ℚ) :=
  c5_sum_conservation [(1 : ℚ)/2] 1 constRng () R1 () thompson_R1

/-- Claim C6: for every trial `t`, the per-trial increment of the adaptive
cumulative regret equals `max(true_probs) - true_probs[chosen_arm_t]` and
lies in `[0, max(true_probs) - min(true_probs)]`, and the per-trial
increment of the static baseline's cumulative regret lies in the same
interval. -/
theorem c6_regret_bounds {σ : Type} (tp : List ℚ) (n : ℤ) (r : Rng σ)
    (s : σ) (res : SimResult) (s' : σ)
    (h : thompson_sampling_bernoulli tp n r s = .ok (res, s')) :
    (∀ t, t < res.cumulative_regret.length →
      seriesStep res.cumulative_regret t =
        pyMax tp - tp.getD (res.choices.getD t 0) 0 ∧
      0 ≤ seriesStep res.cumulative_regret t ∧
      seriesStep res.cumulative_regret t ≤ pyMax tp - listMin tp) ∧
    (∀ t, t < res.static_cumulative_regret.length →
      0 ≤ seriesStep res.static_cumulative_regret t ∧
      seriesStep res.static_cumulative_regret t ≤ pyMax tp - listMin tp) := by
  obtain ⟨hn, htp, st, vals, hrun, hfi, hres⟩ :=
    thompson_ok_inv tp n r s res s' h
  have hI := runTrials_inv r tp (pyMax tp) n.toNat 0 _ st
    (initLoop_inv tp (pyMax tp) s) hrun
  rw [zero_add] at hI
  have hcum : res.cumulative_regret = cumsum st.realized_regret := by
    rw [hres]
  have hchv : res.choices = st.choices := by
    rw [hres]
  have hstat : res.static_cumulative_regret =
      cumsum (vals.map (fun p => pyMax tp - p)) := by
    rw [hres]
  constructor
  · intro t ht
    rw [hcum] at ht
    rw [hcum, hchv]
    have hlen : t < st.realized_regret.length := by
      rw [← cumsum_length]
      exact ht
    have hstep := seriesStep_cumsum st.realized_regret t hlen
    obtain ⟨he, h0, hub⟩ := inv_regret_entry_bounds tp n.toNat st hI t hlen
    exact ⟨by rw [hstep]; exact he, by rw [hstep]; exact h0,
      by rw [hstep]; exact hub⟩
  · intro t ht
    rw [hstat] at ht
    rw [hstat]
    have hlen : t < (vals.map (fun p => pyMax tp - p)).length := by
      rw [← cumsum_length]
      exact ht
    have hstep := seriesStep_cumsum _ t hlen
    have hmem : (vals.map (fun p => pyMax tp - p)).getD t 0 ∈
        vals.map (fun p => pyMax tp - p) := by
      rw [List.getD_eq_getElem _ 0 hlen]
      exact List.getElem_mem hlen
    have hb := static_entry_bounds tp vals
      (fancyIndex_ok_mem tp _ vals hfi) _ hmem
    exact ⟨by rw [hstep]; exact hb.1, by rw [hstep]; exact hb.2⟩

theorem c6_regret_bounds_witness :
    seriesStep R1.cumulative_regret 0 =
      pyMax [(1 : ℚ)/2] -
        ([(1 : ℚ)/2] : List ℚ).getD (R1.choices.getD 0 0) 0 ∧
    0 ≤ seriesStep R1.cumulative_regret 0 ∧
    seriesStep R1.cumulative_regret 0 ≤
      pyMax [(1 : ℚ)/2] - listMin [(1 : ℚ)/2] :=
  (c6_regret_bounds [(1 : ℚ)/2] 1 constRng () R1 () thompson_R1).1 0
    (by norm_num [R1])

/-- Claim C7: both returned cumulative regret series have length exactly
`n_trials`, and both are non-decreasing entry by entry. -/
theorem c7_lengths_and_monotone {σ : Type} (tp : List ℚ) (n : ℤ) (r : Rng σ)
    (s : σ) (res : SimResult) (s' : σ)
    (h : thompson_sampling_bernoulli tp n r s = .ok (res, s')) :
    ((res.cumulative_regret.length : ℤ) = n ∧
     (res.static_cumulative_regret.length : ℤ) = n) ∧
    (∀ t, t + 1 < res.cumulative_regret.length →
      res.cumulative_regret.getD t 0 ≤
        res.cumulative_regret.getD (t + 1) 0) ∧
    (∀ t, t + 1 < res.static_cumulative_regret.length →
      res.static_cumulative_regret.getD t 0 ≤
        res.static_cumulative_regret.getD (t + 1) 0) := by
  obtain ⟨hn, htp, st, vals, hrun, hfi, hres⟩ :=
    thompson_ok_inv tp n r s res s' h
  have hI := runTrials_inv r tp (pyMax tp) n.toNat 0 _ st
    (initLoop_inv tp (pyMax tp) s) hrun
  rw [zero_add] at hI
  have hcum : res.cumulative_regret = cumsum st.realized_regret := by
    rw [hres]
  have hstat : res.static_cumulative_regret =
      cumsum (vals.map (fun p => pyMax tp - p)) := by
    rw [hres]
  refine ⟨⟨?_, ?_⟩, ?_, ?_⟩
  · rw [hcum, cumsum_length, hI.lenG, Int.toNat_of_nonneg hn]
  · rw [hstat, cumsum_length, List.length_map,
      fancyIndex_ok_length tp _ vals hfi, integersVec_length,
      Int.toNat_of_nonneg hn]
  · intro t ht
    rw [hcum] at ht ⊢
    exact cumsum_mono st.realized_regret
      (inv_regret_mem_nonneg tp n.toNat st hI) t
      (by rwa [cumsum_length] at ht)
  · intro t ht
    rw [hstat] at ht ⊢
    refine cumsum_mono _ ?_ t (by rwa [cumsum_length] at ht)
    intro x hx
    exact (static_entry_bounds tp vals
      (fancyIndex_ok_mem tp _ vals hfi) x hx).1

theorem c7_lengths_and_monotone_witness :
    (R1.cumulative_regret.length : ℤ) = 1 ∧
    (R1.static_cumulative_regret.length : ℤ) = 1 :=
  (c7_lengths_and_monotone [(1 : ℚ)/2] 1 constRng () R1 () thompson_R1).1

/-- Claim C8: on a single-arm input, whenever the simulator returns, every
recorded choice is arm `0`, every per-trial regret increment of both
series is `0`, and both cumulative regret series are identically zero (of
length `n_trials`). -/
theorem c8_single_arm {σ : Type} (p : ℚ) (n : ℤ) (r : Rng σ) (s : σ)
    (res : SimResult) (s' : σ)
    (h : thompson_sampling_bernoulli [p] n r s = .ok (res, s')) :
    (∀ c ∈ res.choices, c = 0) ∧
    (∀ t, t < res.cumulative_regret.length →
      seriesStep res.cumulative_regret t = 0) ∧
    (∀ t, t < res.static_cumulative_regret.length →
      seriesStep res.static_cumulative_regret t = 0) ∧
    res.cumulative_regret = List.replicate n.toNat 0 ∧
    res.static_cumulative_regret = List.replicate n.toNat 0 := by
  obtain ⟨hn, htp, st, vals, hrun, hfi, hres⟩ :=
    thompson_ok_inv [p] n r s res s' h
  have hI := runTrials_inv r [p] (pyMax [p]) n.toNat 0 _ st
    (initLoop_inv [p] (pyMax [p]) s) hrun
  rw [zero_add] at hI
  have hcum : res.cumulative_regret = cumsum st.realized_regret := by
    rw [hres]
  have hchv : res.choices = st.choices := by
    rw [hres]
  have hstat : res.static_cumulative_regret =
      cumsum (vals.map (fun q => pyMax [p] - q)) := by
    rw [hres]
  have hzero : ∀ x ∈ st.realized_regret, x = 0 := by
    intro x hx
    obtain ⟨i, hi, hix⟩ := List.getElem_of_mem hx
    have he := (inv_regret_entry_bounds [p] n.toNat st hI i hi).1
    have hclen : i < st.choices.length := by
      rw [hI.lenC, ← hI.lenG]
      exact hi
    have hcmem : st.choices.getD i 0 ∈ st.choices := by
      rw [List.getD_eq_getElem st.choices 0 hclen]
      exact List.getElem_mem hclen
    have hcb : st.choices.getD i 0 < 1 := by
      simpa using hI.choiceLt _ hcmem
    have hc0 : st.choices.getD i 0 = 0 := by omega
    rw [hc0] at he
    have hval : st.realized_regret.getD i 0 = 0 := by
      rw [he]
      show pyMax [p] - ([p] : List ℚ).getD 0 0 = 0
      simp [pyMax]
    rw [List.getD_eq_getElem _ 0 hi, hix] at hval
    exact hval
  have hstatzero : ∀ x ∈ vals.map (fun q => pyMax [p] - q), x = 0 := by
    intro x hx
    obtain ⟨v, hv, rfl⟩ := List.mem_map.1 hx
    have hvp : v ∈ ([p] : List ℚ) := fancyIndex_ok_mem [p] _ vals hfi v hv
    rcases List.mem_singleton.1 hvp with rfl
    simp [pyMax]
  have hlen2 : (vals.map (fun q => pyMax [p] - q)).length = n.toNat := by
    rw [List.length_map, fancyIndex_ok_length [p] _ vals hfi,
      integersVec_length]
  refine ⟨?_, ?_, ?_, ?_, ?_⟩
  · intro c hc
    rw [hchv] at hc
    have hlt := hI.choiceLt c hc
    simp at hlt
    omega
  · intro t ht
    rw [hcum] at ht ⊢
    rw [cumsum_zeros st.realized_regret hzero]
    cases t with
    | zero => simp [seriesStep, getD_replicate_zero]
    | succ k => simp [seriesStep, getD_replicate_zero]
  · intro t ht
    rw [hstat] at ht ⊢
    rw [cumsum_zeros _ hstatzero]
    cases t with
    | zero => simp [seriesStep, getD_replicate_zero]
    | succ k => simp [seriesStep, getD_replicate_zero]
  · rw [hcum, cumsum_zeros st.realized_regret hzero, hI.lenG]
  · rw [hstat, cumsum_zeros _ hstatzero, hlen2]

theorem c8_single_arm_witness :
    (∀ c ∈ R1.choices, c = 0) ∧
    (∀ t, t < R1.cumulative_regret.length →
      seriesStep R1.cumulative_regret t = 0) ∧
    (∀ t, t < R1.static_cumulative_regret.length →
      seriesStep R1.static_cumulative_regret t = 0) ∧
    R1.cumulative_regret = List.replicate (1 : ℤ).toNat 0 ∧
    R1.static_cumulative_regret = List.replicate (1 : ℤ).toNat 0 :=
  c8_single_arm ((1 : ℚ)/2) 1 constRng () R1 () thompson_R1

/-- Claim C9: the returned bundle's `true_probs` field is exactly the
input list.  In this pure embedding the caller's list cannot be mutated
(the simulator is a function of its arguments whose only stateful effect
is threading the randomness source), which is the frame condition the
claim states. -/
theorem c9_true_probs_unchanged {σ : Type} (tp : List ℚ) (n : ℤ) (r : Rng σ)
    (s : σ) (res : SimResult) (s' : σ)
    (h : thompson_sampling_bernoulli tp n r s = .ok (res, s')) :
    res.true_probs = tp := by
  obtain ⟨hn, htp, st, vals, hrun, hfi, hres⟩ :=
    thompson_ok_inv tp n r s res s' h
  rw [hres]

theorem c9_true_probs_unchanged_witness : R1.true_probs = [(1 : ℚ)/2] :=
  c9_true_probs_unchanged [(1 : ℚ)/2] 1 constRng () R1 () thompson_R1

/-- Claim C10: after any number of completed trials, and in the returned
bundle, every posterior parameter is a positive integer: it starts at `1`
and is only ever incremented by exactly `1` (stated over the rational
embedding as being the cast of a natural number that is at least 1). -/
theorem c10_posteriors_positive_integers {σ : Type} (tp : List ℚ)
    (r : Rng σ) (s : σ) :
    (∀ (k : ℕ) (st' : LoopState σ),
      runTrials r tp (pyMax tp) k (initLoop tp.length s) = .ok st' →
      (∀ x ∈ st'.alpha, ∃ m : ℕ, 1 ≤ m ∧ x = (m : ℚ)) ∧
      (∀ x ∈ st'.beta, ∃ m : ℕ, 1 ≤ m ∧ x = (m : ℚ))) ∧
    (∀ (n : ℤ) (res : SimResult) (s' : σ),
      thompson_sampling_bernoulli tp n r s = .ok (res, s') →
      (∀ x ∈ res.alpha, ∃ m : ℕ, 1 ≤ m ∧ x = (m : ℚ)) ∧
      (∀ x ∈ res.beta, ∃ m : ℕ, 1 ≤ m ∧ x = (m : ℚ))) := by
  constructor
  · intro k st' h
    have hI := runTrials_inv r tp (pyMax tp) k 0 _ st'
      (initLoop_inv tp (pyMax tp) s) h
    rw [zero_add] at hI
    exact ⟨hI.natA, hI.natB⟩
  · intro n res s' h
    obtain ⟨hn, htp, st, vals, hrun, hfi, hres⟩ :=
      thompson_ok_inv tp n r s res s' h
    have hI := runTrials_inv r tp (pyMax tp) n.toNat 0 _ st
      (initLoop_inv tp (pyMax tp) s) hrun
    rw [zero_add] at hI
    have h1 : res.alpha = st.alpha := by
      rw [hres]
    have h2 : res.beta = st.beta := by
      rw [hres]
    rw [h1, h2]
    exact ⟨hI.natA, hI.natB⟩

theorem c10_posteriors_positive_integers_witness :
    ((∀ x ∈ stOne.alpha, ∃ m : ℕ, 1 ≤ m ∧ x = (m : ℚ)) ∧
     (∀ x ∈ stOne.beta, ∃ m : ℕ, 1 ≤ m ∧ x = (m : ℚ))) ∧
    ((∀ x ∈ R1.alpha, ∃ m : ℕ, 1 ≤ m ∧ x = (m : ℚ)) ∧
     (∀ x ∈ R1.beta, ∃ m : ℕ, 1 ≤ m ∧ x = (m : ℚ))) :=
  ⟨(c10_posteriors_positive_integers [(1 : ℚ)/2] constRng ()).1 1 stOne
      runTrials_stOne,
   (c10_posteriors_positive_integers [(1 : ℚ)/2] constRng ()).2 1 R1 ()
      thompson_R1⟩

end Mabworkshoppy
